import Mathlib

set_option linter.unusedVariables false

/-!
Verification of the lianlol check-in service's security and moderation core.

The definitions below are shallow embeddings of the Python sources:
  - `src/utils/security.py` (blacklist, geo classification, rate limiter,
    duplicate detector, honeypot check),
  - `src/utils/archive_handler.py` (archive validation, preview selection),
  - `src/db/repositories/checkin.py` and `src/api/admin.py` (moderation).

Strings from the Python side are modelled as `List Char`; timestamps
(`time.time()` floats, ISO dates) as `Int`; SQLite tables as lists of rows.
-/

namespace Lianlol

/-! ## Python string primitives

`str.strip()` with no argument removes ASCII whitespace from both ends
(the unicode whitespace cases of Python are not exercised by this code). -/

def isPySpace (c : Char) : Bool :=
  c = ' ' || c = '\t' || c = '\n' || c = '\r' || c = '\x0b' || c = '\x0c'

/-- Python `str.strip()`: drop whitespace at both ends. -/
def pyStrip (s : List Char) : List Char :=
  ((s.dropWhile isPySpace).reverse.dropWhile isPySpace).reverse

/-- Splitting a character stream at a separator, as Python's `str.split(sep)`
does: `n` separators give `n+1` (possibly empty) segments. -/
def splitOnChar (sep : Char) : List Char → List (List Char)
  | [] => [[]]
  | c :: cs =>
    if c = sep then [] :: splitOnChar sep cs
    else
      match splitOnChar sep cs with
      | [] => [[c]]
      | l :: ls => (c :: l) :: ls

/-- Python `int(s)` restricted to plain decimal digit strings (the only shape
the embedded call sites feed it); anything else is a parse failure. -/
def parseDec (l : List Char) : Option Nat :=
  if l ≠ [] ∧ l.all Char.isDigit then
    some (l.foldl (fun a c => a * 10 + (c.toNat - 48)) 0)
  else none

/-! ## pathlib name/stem/suffix

`Path(p).name` is the last nonempty `/`-separated component; `suffix` is the
final `.`-extension of the name when the last dot is neither the first nor the
last character of the name; `stem` is the name with that extension removed. -/

def lastComponent (p : List Char) : List Char :=
  ((splitOnChar '/' p).filter (· ≠ [])).getLastD []

def nameSuffix (name : List Char) : List Char :=
  match (splitOnChar '.' name).reverse with
  | [] => []
  | [_] => []
  | lastPart :: restRev =>
    if lastPart = [] then []
    else if restRev = [[]] then []
    else '.' :: lastPart

def joinWith (sep : Char) : List (List Char) → List Char
  | [] => []
  | [l] => l
  | l :: ls => l ++ sep :: joinWith sep ls

def nameStem (name : List Char) : List Char :=
  match (splitOnChar '.' name).reverse with
  | [] => name
  | [_] => name
  | lastPart :: restRev =>
    if lastPart = [] then name
    else if restRev = [[]] then name
    else joinWith '.' restRev.reverse

def pathSuffix (p : List Char) : List Char := nameSuffix (lastComponent p)

def pathStem (p : List Char) : List Char := nameStem (lastComponent p)

def pathName (p : List Char) : List Char := lastComponent p

example : pathSuffix "dir/payload.exe".data = ".exe".data := by decide
example : pathStem "c10.jpg".data = "c10".data := by decide
example : pathSuffix ".bashrc".data = [] := by decide
example : pathSuffix "a.tar.gz".data = ".gz".data := by decide

/-! ## Rate limiter (`security.check_rate_limit`)

Per-identifier state: `_request_history[ip]` is the list of `(timestamp,
action)` events, `_temp_bans[ip]` the optional ban-expiry time.  Only the
state of the one identifier under scrutiny is modelled; calls for other
identifiers touch disjoint dictionary entries. -/

def RATE_LIMIT_WINDOW : Int := 60

def RATE_LIMIT_MAX_REQUESTS : Nat := 10

def RATE_LIMIT_BAN_DURATION : Int := 300

structure RateState where
  history : List (Int × String)
  banUntil : Option Int
deriving Repr, DecidableEq

/-- The outcome of `check_rate_limit`: `(True, "")`, or one of the two deny
messages; the banned message interpolates the remaining seconds. -/
inductive RateReply where
  | allow
  | denyBanned (remaining : Int)
  | denyLimited
deriving Repr, DecidableEq

def pruneHistory (now : Int) (h : List (Int × String)) : List (Int × String) :=
  h.filter (fun e => now - e.1 < RATE_LIMIT_WINDOW)

def writeCount (h : List (Int × String)) : Nat :=
  (h.filter (fun e => e.2 = "write")).length

/-- The body of `check_rate_limit` once any expired ban has been removed. -/
def rateBody (now : Int) (s : RateState) : RateReply × RateState :=
  let pruned := pruneHistory now s.history
  if RATE_LIMIT_MAX_REQUESTS ≤ writeCount pruned then
    (.denyLimited, { history := pruned, banUntil := some (now + RATE_LIMIT_BAN_DURATION) })
  else
    (.allow, { history := pruned ++ [(now, "write")], banUntil := none })

def checkRateLimit (now : Int) (action : String) (s : RateState) : RateReply × RateState :=
  if action ≠ "write" then (.allow, s)
  else
    match s.banUntil with
    | some b =>
      if now < b then (.denyBanned (b - now), s)
      else rateBody now { s with banUntil := none }
    | none => rateBody now s

/-- Replaying a list of `(timestamp, action)` calls against the state. -/
def runCalls : RateState → List (Int × String) → RateState
  | s, [] => s
  | s, c :: cs => runCalls (checkRateLimit c.1 c.2 s).2 cs

/-- No ban is active at time `t` (the entry is absent, or already expired so
that the next write call deletes it). -/
def banInactive (t : Int) (s : RateState) : Bool :=
  match s.banUntil with
  | none => true
  | some b => decide (b ≤ t)

/-- State after the triggering over-threshold write call at time `t0`. -/
def postBanState (t0 : Int) (s : RateState) : RateState :=
  ⟨pruneHistory t0 s.history, some (t0 + RATE_LIMIT_BAN_DURATION)⟩

theorem checkRateLimit_trigger (s : RateState) (t0 : Int)
    (hban : banInactive t0 s = true)
    (hcount : RATE_LIMIT_MAX_REQUESTS ≤ writeCount (pruneHistory t0 s.history)) :
    checkRateLimit t0 "write" s = (.denyLimited, postBanState t0 s) := by
  have hw : ¬ ("write" : String) ≠ "write" := by simp
  cases hb : s.banUntil with
  | none =>
    simp only [checkRateLimit, hb, if_neg hw, rateBody, postBanState]
    rw [if_pos hcount]
  | some b =>
    have hble : b ≤ t0 := by simpa [banInactive, hb] using hban
    simp only [checkRateLimit, hb, if_neg hw, if_neg (not_lt.mpr hble), rateBody, postBanState]
    rw [if_pos hcount]

theorem checkRateLimit_banned_step (t0 t : Int) (s : RateState) (a : String)
    (ht : t < t0 + RATE_LIMIT_BAN_DURATION) :
    (checkRateLimit t a (postBanState t0 s)).2 = postBanState t0 s := by
  by_cases ha : a = "write"
  · subst ha
    have hw : ¬ ("write" : String) ≠ "write" := by simp
    simp only [checkRateLimit, postBanState, if_neg hw, if_pos ht]
  · simp only [checkRateLimit, if_pos ha]

/-- C1: for an identifier whose recorded write events inside the trailing
60-second window have reached the threshold of 10, the write call denies and
records a ban expiring 300 seconds later; until that expiry every call leaves
the state unchanged and every write call denies reporting the remaining time;
and the first write call at or after the expiry instant is allowed. -/
theorem checkRateLimit_threshold_ban_cycle (s : RateState) (t0 : Int)
    (hban : banInactive t0 s = true)
    (hhist : ∀ e ∈ s.history, e.1 ≤ t0)
    (hcount : RATE_LIMIT_MAX_REQUESTS ≤ writeCount (pruneHistory t0 s.history)) :
    (checkRateLimit t0 "write" s).1 = .denyLimited ∧
    (checkRateLimit t0 "write" s).2.banUntil = some (t0 + RATE_LIMIT_BAN_DURATION) ∧
    (∀ calls : List (Int × String),
        (∀ c ∈ calls, c.1 < t0 + RATE_LIMIT_BAN_DURATION) →
        runCalls (checkRateLimit t0 "write" s).2 calls = (checkRateLimit t0 "write" s).2) ∧
    (∀ t, t < t0 + RATE_LIMIT_BAN_DURATION →
        checkRateLimit t "write" (checkRateLimit t0 "write" s).2 =
          (.denyBanned (t0 + RATE_LIMIT_BAN_DURATION - t), (checkRateLimit t0 "write" s).2)) ∧
    (∀ t, t0 + RATE_LIMIT_BAN_DURATION ≤ t →
        (checkRateLimit t "write" (checkRateLimit t0 "write" s).2).1 = .allow) := by
  have key := checkRateLimit_trigger s t0 hban hcount
  rw [key]
  have hw : ¬ ("write" : String) ≠ "write" := by simp
  refine ⟨rfl, rfl, ?_, ?_, ?_⟩
  · intro calls hcalls
    induction calls with
    | nil => rfl
    | cons c cs ih =>
      have hstep := checkRateLimit_banned_step t0 c.1 s c.2 (hcalls c (List.mem_cons_self c cs))
      simp only [runCalls, hstep]
      exact ih (fun d hd => hcalls d (List.mem_cons_of_mem c hd))
  · intro t ht
    simp only [checkRateLimit, postBanState, if_neg hw, if_pos ht]
  · intro t ht
    have hnlt : ¬ t < t0 + RATE_LIMIT_BAN_DURATION := not_lt.mpr ht
    have hnil : pruneHistory t (postBanState t0 s).history = [] := by
      apply List.filter_eq_nil_iff.mpr
      intro e he
      have he0 : e.1 ≤ t0 := hhist e (List.mem_of_mem_filter he)
      simp only [decide_eq_true_eq, not_lt]
      simp only [RATE_LIMIT_WINDOW]
      simp only [RATE_LIMIT_BAN_DURATION] at ht
      omega
    simp only [checkRateLimit, postBanState, if_neg hw, if_neg hnlt, rateBody]
    rw [show pruneHistory t (⟨pruneHistory t0 s.history, none⟩ : RateState).history = [] from hnil]
    simp [writeCount, RATE_LIMIT_MAX_REQUESTS]

def c1WitnessState : RateState :=
  ⟨[(0, "write"), (5, "write"), (10, "write"), (15, "write"), (20, "write"),
    (25, "write"), (30, "write"), (35, "write"), (40, "write"), (45, "write")], none⟩

theorem checkRateLimit_threshold_ban_cycle_witness :
    (checkRateLimit 50 "write" c1WitnessState).1 = .denyLimited ∧
    (checkRateLimit 50 "write" c1WitnessState).2.banUntil =
      some (50 + RATE_LIMIT_BAN_DURATION) := by
  have h := checkRateLimit_threshold_ban_cycle c1WitnessState 50 (by decide) (by decide) (by decide)
  exact ⟨h.1, h.2.1⟩

/-! ## Duplicate detector (`security.check_duplicate_content`)

`_content_hashes` maps the md5 of the stripped content to its first-seen
time.  The strong hash is modelled by the stripped content itself: the spec
accepts the collision-free reading, under which the keys are in bijection
with trimmed values. -/

def DUPLICATE_WINDOW : Int := 300

def contentHash (content : List Char) : List Char := pyStrip content

def checkDuplicateContent (now : Int) (content : List Char)
    (cache : List (List Char × Int)) : Bool × List (List Char × Int) :=
  let purged := cache.filter (fun e => now - e.2 ≤ DUPLICATE_WINDOW)
  let h := contentHash content
  if purged.any (fun e => e.1 = h) then (false, purged)
  else (true, (h, now) :: purged)

/-- C7: a second submission whose trimmed value matches an allowed first one
is denied when it comes within the 300-second window — and the deny keeps the
original first-seen timestamp in the cache — while a submission coming more
than 300 seconds after the first-seen time is allowed again. -/
theorem checkDuplicateContent_dedup_window (cache : List (List Char × Int))
    (c1 c2 : List Char) (t1 t2 : Int)
    (hsame : pyStrip c1 = pyStrip c2)
    (h1 : (checkDuplicateContent t1 c1 cache).1 = true)
    (hle : t1 ≤ t2) :
    (t2 - t1 ≤ DUPLICATE_WINDOW →
       (checkDuplicateContent t2 c2 (checkDuplicateContent t1 c1 cache).2).1 = false ∧
       (pyStrip c1, t1) ∈ (checkDuplicateContent t2 c2 (checkDuplicateContent t1 c1 cache).2).2) ∧
    (DUPLICATE_WINDOW < t2 - t1 →
       (checkDuplicateContent t2 c2 (checkDuplicateContent t1 c1 cache).2).1 = true) := by
  have hkey : contentHash c2 = contentHash c1 := by
    simp [contentHash, hsame]
  by_cases hc : (cache.filter (fun e => t1 - e.2 ≤ DUPLICATE_WINDOW)).any
      (fun e => e.1 = contentHash c1) = true
  · exfalso
    simp only [checkDuplicateContent, hc, if_true] at h1
    exact Bool.false_ne_true h1
  · have hnot : ∀ e ∈ cache.filter (fun e => t1 - e.2 ≤ DUPLICATE_WINDOW),
        e.1 ≠ contentHash c1 := by
      intro e he
      by_contra hcontra
      apply hc
      exact List.any_eq_true.mpr ⟨e, he, by simpa using hcontra⟩
    have hs1 : (checkDuplicateContent t1 c1 cache).2 =
        (contentHash c1, t1) :: cache.filter (fun e => t1 - e.2 ≤ DUPLICATE_WINDOW) := by
      simp only [checkDuplicateContent, hc, if_false]
      simp [hc]
    rw [hs1]
    constructor
    · intro hwin
      have hkept : (decide (t2 - t1 ≤ DUPLICATE_WINDOW)) = true := by simpa using hwin
      have hfilter : ((contentHash c1, t1) ::
            cache.filter (fun e => t1 - e.2 ≤ DUPLICATE_WINDOW)).filter
              (fun e => t2 - e.2 ≤ DUPLICATE_WINDOW) =
          (contentHash c1, t1) :: (cache.filter (fun e => t1 - e.2 ≤ DUPLICATE_WINDOW)).filter
              (fun e => t2 - e.2 ≤ DUPLICATE_WINDOW) := by
        simp [List.filter_cons, hwin]
        linarith
      have hany2 : (((contentHash c1, t1) ::
            cache.filter (fun e => t1 - e.2 ≤ DUPLICATE_WINDOW)).filter
              (fun e => t2 - e.2 ≤ DUPLICATE_WINDOW)).any
            (fun e => e.1 = contentHash c2) = true := by
        rw [hfilter]
        exact List.any_eq_true.mpr ⟨(contentHash c1, t1), List.mem_cons_self _ _, by simp [hkey]⟩
      constructor
      · simp only [checkDuplicateContent, hany2, if_true]
      · simp only [checkDuplicateContent, hany2, if_true]
        rw [hfilter]
        exact List.mem_cons_self _ _
    · intro hout
      have hdrop : (decide (t2 - t1 ≤ DUPLICATE_WINDOW)) = false := by
        simp [not_le.mpr hout]
      have hfilter : ((contentHash c1, t1) ::
            cache.filter (fun e => t1 - e.2 ≤ DUPLICATE_WINDOW)).filter
              (fun e => t2 - e.2 ≤ DUPLICATE_WINDOW) =
          (cache.filter (fun e => t1 - e.2 ≤ DUPLICATE_WINDOW)).filter
              (fun e => t2 - e.2 ≤ DUPLICATE_WINDOW) := by
        simp [List.filter_cons, not_le.mpr hout]
        linarith
      have hany2 : (((contentHash c1, t1) ::
            cache.filter (fun e => t1 - e.2 ≤ DUPLICATE_WINDOW)).filter
              (fun e => t2 - e.2 ≤ DUPLICATE_WINDOW)).any
            (fun e => e.1 = contentHash c2) = false := by
        rw [hfilter]
        rw [List.any_eq_false]
        intro e he
        have he1 : e ∈ cache.filter (fun e => t1 - e.2 ≤ DUPLICATE_WINDOW) :=
          List.mem_of_mem_filter he
        simpa [hkey] using hnot e he1
      simp only [checkDuplicateContent, hany2, if_false]
      simp [hany2]

theorem checkDuplicateContent_dedup_window_witness :
    ((checkDuplicateContent 100 " hello".data
        (checkDuplicateContent 0 "hello ".data []).2).1 = false ∧
      (pyStrip "hello ".data, 0) ∈ (checkDuplicateContent 100 " hello".data
        (checkDuplicateContent 0 "hello ".data []).2).2) := by
  have h := checkDuplicateContent_dedup_window [] "hello ".data " hello".data 0 100
    (by decide) (by decide) (by decide)
  exact h.1 (by decide)

/-! ## Honeypot check (`security.check_honeypot`)

The honeypot value is an optional string; the form timestamp is absent
(`None` or the falsy empty string), present but unparseable (`float` raises,
the check is skipped), or a parsed load time. -/

inductive FormTimestamp where
  | absent
  | malformed
  | valid (loadTime : Int)
deriving Repr, DecidableEq

/-- Python truthiness of `honeypot_value and honeypot_value.strip()`. -/
def hvTruthy : Option (List Char) → Bool
  | some s => decide (s ≠ []) && decide (pyStrip s ≠ [])
  | none => false

def checkHoneypot (hv : Option (List Char)) (fts : FormTimestamp) (now : Int) :
    Bool × String :=
  if hvTruthy hv then (false, "检测到异常请求")
  else
    match fts with
    | .valid loadTime =>
      if now - loadTime < 3 then (false, "提交过快，请稍后再试")
      else if 3600 < now - loadTime then (false, "表单已过期，请刷新页面")
      else (true, "")
    | _ => (true, "")

/-- C8 counterexample: the whitespace-only honeypot value `" "` is a
non-empty string, yet `check_honeypot` allows the submission (its condition
is `honeypot_value and honeypot_value.strip()`), so a non-empty honeypot
value does not deny unconditionally. -/
theorem checkHoneypot_nonempty_claim_counterexample :
    (' ' :: [] : List Char) ≠ [] ∧
    (checkHoneypot (some (' ' :: [])) .absent 0).1 = true := by decide

/-- C8 amended: `check_honeypot` denies whenever the honeypot value strips to
a non-empty string (contains any non-whitespace), for every form-timestamp
value. -/
theorem checkHoneypot_nonwhitespace_denies (s : List Char) (fts : FormTimestamp)
    (now : Int) (h : pyStrip s ≠ []) :
    (checkHoneypot (some s) fts now).1 = false := by
  have hs : s ≠ [] := by
    intro he
    subst he
    exact h rfl
  simp [checkHoneypot, hvTruthy, hs, h]

theorem checkHoneypot_nonwhitespace_denies_witness :
    (checkHoneypot (some "x".data) .absent 0).1 = false :=
  checkHoneypot_nonwhitespace_denies "x".data .absent 0 (by decide)

/-! ## IP classification (`security.get_country_code` and friends)

The optional GeoLite2 database file is not part of the repository, so
`_get_geoip_reader()` returns `None` and `get_country_code` takes the static
China-range fallback.  `ip_to_int` is modelled for plain dotted decimal
octets; the exotic inputs Python's `int()` would additionally accept
(signs, whitespace, underscores) parse to 0 here, as malformed input does in
the source. -/

def ipToInt (ip : List Char) : Nat :=
  match (splitOnChar '.' ip).map parseDec with
  | some a :: some b :: some c :: some d :: _ =>
    a * 16777216 + b * 65536 + c * 256 + d
  | _ => 0

def ipRange (a b : String) : Nat × Nat := (ipToInt a.data, ipToInt b.data)

def chinaIpRanges : List (Nat × Nat) :=
  [ ipRange "1.0.1.0" "1.0.3.255",
    ipRange "1.0.8.0" "1.0.15.255",
    ipRange "1.0.32.0" "1.0.63.255",
    ipRange "1.1.0.0" "1.1.0.255",
    ipRange "1.1.2.0" "1.1.63.255",
    ipRange "1.2.0.0" "1.2.255.255",
    ipRange "1.4.1.0" "1.4.127.255",
    ipRange "1.8.0.0" "1.8.255.255",
    ipRange "1.12.0.0" "1.15.255.255",
    ipRange "1.24.0.0" "1.31.255.255",
    ipRange "1.45.0.0" "1.45.255.255",
    ipRange "1.48.0.0" "1.51.255.255",
    ipRange "1.56.0.0" "1.63.255.255",
    ipRange "1.68.0.0" "1.71.255.255",
    ipRange "1.80.0.0" "1.95.255.255",
    ipRange "1.116.0.0" "1.119.255.255",
    ipRange "1.180.0.0" "1.183.255.255",
    ipRange "1.188.0.0" "1.191.255.255",
    ipRange "1.192.0.0" "1.207.255.255",
    ipRange "14.0.0.0" "14.255.255.255",
    ipRange "27.0.0.0" "27.255.255.255",
    ipRange "36.0.0.0" "36.255.255.255",
    ipRange "39.0.0.0" "39.255.255.255",
    ipRange "42.0.0.0" "42.255.255.255",
    ipRange "49.0.0.0" "49.255.255.255",
    ipRange "58.0.0.0" "58.255.255.255",
    ipRange "59.0.0.0" "59.255.255.255",
    ipRange "60.0.0.0" "60.255.255.255",
    ipRange "61.0.0.0" "61.255.255.255",
    ipRange "101.0.0.0" "101.255.255.255",
    ipRange "103.0.0.0" "103.255.255.255",
    ipRange "106.0.0.0" "106.255.255.255",
    ipRange "110.0.0.0" "110.255.255.255",
    ipRange "111.0.0.0" "111.255.255.255",
    ipRange "112.0.0.0" "112.255.255.255",
    ipRange "113.0.0.0" "113.255.255.255",
    ipRange "114.0.0.0" "114.255.255.255",
    ipRange "115.0.0.0" "115.255.255.255",
    ipRange "116.0.0.0" "116.255.255.255",
    ipRange "117.0.0.0" "117.255.255.255",
    ipRange "118.0.0.0" "118.255.255.255",
    ipRange "119.0.0.0" "119.255.255.255",
    ipRange "120.0.0.0" "120.255.255.255",
    ipRange "121.0.0.0" "121.255.255.255",
    ipRange "122.0.0.0" "122.255.255.255",
    ipRange "123.0.0.0" "123.255.255.255",
    ipRange "124.0.0.0" "124.255.255.255",
    ipRange "125.0.0.0" "125.255.255.255",
    ipRange "126.0.0.0" "126.255.255.255",
    ipRange "139.0.0.0" "139.255.255.255",
    ipRange "140.0.0.0" "140.255.255.255",
    ipRange "144.0.0.0" "144.255.255.255",
    ipRange "150.0.0.0" "150.255.255.255",
    ipRange "153.0.0.0" "153.255.255.255",
    ipRange "157.0.0.0" "157.255.255.255",
    ipRange "159.0.0.0" "159.255.255.255",
    ipRange "163.0.0.0" "163.255.255.255",
    ipRange "171.0.0.0" "171.255.255.255",
    ipRange "175.0.0.0" "175.255.255.255",
    ipRange "180.0.0.0" "180.255.255.255",
    ipRange "182.0.0.0" "182.255.255.255",
    ipRange "183.0.0.0" "183.255.255.255",
    ipRange "202.0.0.0" "202.255.255.255",
    ipRange "203.0.0.0" "203.255.255.255",
    ipRange "210.0.0.0" "210.255.255.255",
    ipRange "211.0.0.0" "211.255.255.255",
    ipRange "218.0.0.0" "218.255.255.255",
    ipRange "219.0.0.0" "219.255.255.255",
    ipRange "220.0.0.0" "220.255.255.255",
    ipRange "221.0.0.0" "221.255.255.255",
    ipRange "222.0.0.0" "222.255.255.255",
    ipRange "223.0.0.0" "223.255.255.255" ]

def checkChinaIpRange (ip : List Char) : Option (List Char) :=
  let ipInt := ipToInt ip
  if ipInt = 0 then none
  else if chinaIpRanges.any (fun r => decide (r.1 ≤ ipInt) && decide (ipInt ≤ r.2)) then
    some "CN".data
  else none

def isLocalIp (ip : List Char) : Bool :=
  ip = "127.0.0.1".data || ip = "localhost".data || ip = "::1".data ||
    "192.168.".data.isPrefixOf ip || "10.".data.isPrefixOf ip

def getCountryCode (ip : List Char) : Option (List Char) :=
  if isLocalIp ip then some "LOCAL".data else checkChinaIpRange ip

def isBlockedCountry (ip : List Char) : Bool × Option (List Char) :=
  let country := getCountryCode ip
  if country = some "CN".data then (true, country) else (false, country)

theorem isPrefixOf_append_self (l r : List Char) : l.isPrefixOf (l ++ r) = true := by
  induction l with
  | nil => simp [List.isPrefixOf]
  | cons a as ih => simp [List.isPrefixOf, ih]

/-- C9 counterexample: `172.16.0.1` lies in the private range 172.16.0.0/12,
yet `get_country_code` does not classify it as local (its local check covers
only loopback, `192.168.` and `10.` strings) — the fallback yields no
country at all. -/
theorem getCountryCode_172_16_counterexample :
    getCountryCode "172.16.0.1".data ≠ some "LOCAL".data ∧
    getCountryCode "172.16.0.1".data = none := by decide

/-- C9 amended: loopback and the private ranges 10.0.0.0/8 and
192.168.0.0/16 yield the local classification and are never blocked, while a
172.16.0.0/12 address is not classified local — it falls through to the
China-range fallback, which yields no country, so it is still never
blocked. -/
theorem getCountryCode_private_classification :
    getCountryCode "127.0.0.1".data = some "LOCAL".data ∧
    getCountryCode "::1".data = some "LOCAL".data ∧
    (∀ rest : List Char, getCountryCode ("192.168.".data ++ rest) = some "LOCAL".data) ∧
    (∀ rest : List Char, getCountryCode ("10.".data ++ rest) = some "LOCAL".data) ∧
    (∀ ip : List Char, getCountryCode ip = some "LOCAL".data →
        isBlockedCountry ip = (false, some "LOCAL".data)) ∧
    (∀ ip : List Char, isLocalIp ip = false →
        2886729728 ≤ ipToInt ip → ipToInt ip ≤ 2887778303 →
        getCountryCode ip = none ∧ isBlockedCountry ip = (false, none)) := by
  refine ⟨by decide, by decide, ?_, ?_, ?_, ?_⟩
  · intro rest
    simp [getCountryCode, isLocalIp, isPrefixOf_append_self]
  · intro rest
    simp [getCountryCode, isLocalIp, isPrefixOf_append_self]
  · intro ip h
    simp [isBlockedCountry, h]
  · intro ip hlocal hlo hhi
    have hcc : getCountryCode ip = none := by
      have hranges : ∀ r ∈ chinaIpRanges, r.2 < 2886729728 ∨ 2887778303 < r.1 := by decide
      have hany : chinaIpRanges.any
          (fun r => decide (r.1 ≤ ipToInt ip) && decide (ipToInt ip ≤ r.2)) = false := by
        rw [List.any_eq_false]
        intro r hr
        rcases hranges r hr with h | h
        · simp only [Bool.and_eq_true, decide_eq_true_eq, not_and]
          intro _
          omega
        · simp only [Bool.and_eq_true, decide_eq_true_eq, not_and]
          intro hc
          omega
      have hnz : ¬ ipToInt ip = 0 := by omega
      simp [getCountryCode, hlocal, checkChinaIpRange, hnz, hany]
    exact ⟨hcc, by simp [isBlockedCountry, hcc]⟩

/-! ## Blocklist store (`security.load_blacklist` / `add_to_blacklist` /
`is_blacklisted`)

The store is a flat text file.  `add_to_blacklist` appends `f"{ip}\n"`;
`load_blacklist` iterates the lines, strips each, and keeps the nonempty ones
not starting with `#`; `is_blacklisted` is membership in the loaded set.
The file content is modelled as `List Char`.  `load_blacklist` opens the
file in text mode with the default `newline=None`, so the reader applies
universal-newline translation: `"\r\n"` and a lone `"\r"` are read back as
`"\n"`.  Line iteration is therefore modelled as that translation followed
by splitting at `'\n'`; a split segment then carries no terminator that
`pyStrip` would not remove, and the trailing empty segment of a
newline-terminated file is dropped by the same nonempty check that skips
blank lines. -/

/-- Universal-newline translation of Python's text-mode reader
(`newline=None`): `"\r\n" → "\n"` and lone `"\r" → "\n"`. -/
def newlineTranslate : List Char → List Char
  | [] => []
  | '\r' :: '\n' :: rest => '\n' :: newlineTranslate rest
  | '\r' :: rest => '\n' :: newlineTranslate rest
  | c :: rest => c :: newlineTranslate rest

def addToBlacklist (file : List Char) (ip : List Char) : List Char :=
  file ++ ip ++ ['\n']

def lineKept (l : List Char) : Bool :=
  match l with
  | [] => false
  | c :: _ => c != '#'

def loadBlacklist (file : List Char) : List (List Char) :=
  ((splitOnChar '\n' (newlineTranslate file)).map pyStrip).filter lineKept

def isBlacklisted (file : List Char) (ip : List Char) : Bool :=
  (loadBlacklist file).contains ip

/-- Store states reachable by appends alone (the store starts empty and both
writers append `identifier ++ "\n"`). -/
def blacklistFile (adds : List (List Char)) : List Char :=
  (adds.map (fun s => s ++ ['\n'])).flatten

theorem splitOnChar_ne_nil (c : Char) (l : List Char) : splitOnChar c l ≠ [] := by
  induction l with
  | nil => simp [splitOnChar]
  | cons a as ih =>
    simp only [splitOnChar]
    by_cases h : a = c
    · simp [h]
    · simp only [if_neg h]
      cases hs : splitOnChar c as with
      | nil => exact absurd hs ih
      | cons x xs => simp

theorem splitOnChar_cons_pos (c x : Char) (xs : List Char) (h : x = c) :
    splitOnChar c (x :: xs) = [] :: splitOnChar c xs := by
  simp [splitOnChar, h]

theorem splitOnChar_cons_neg (c x : Char) (xs y : List Char) (ys : List (List Char))
    (h : ¬ x = c) (hs : splitOnChar c xs = y :: ys) :
    splitOnChar c (x :: xs) = (x :: y) :: ys := by
  simp [splitOnChar, h, hs]

theorem splitOnChar_append_cons (c : Char) (a b : List Char) :
    splitOnChar c (a ++ c :: b) = splitOnChar c a ++ splitOnChar c b := by
  induction a with
  | nil => simp [splitOnChar]
  | cons x xs ih =>
    rw [List.cons_append]
    by_cases h : x = c
    · rw [splitOnChar_cons_pos c x (xs ++ c :: b) h, splitOnChar_cons_pos c x xs h, ih]
      rfl
    · cases hs : splitOnChar c xs with
      | nil => exact absurd hs (splitOnChar_ne_nil c xs)
      | cons y ys =>
        rw [splitOnChar_cons_neg c x (xs ++ c :: b) y (ys ++ splitOnChar c b) h
          (by rw [ih, hs]; rfl)]
        rw [splitOnChar_cons_neg c x xs y ys h hs]
        rfl

theorem splitOnChar_of_not_mem (c : Char) (l : List Char) (h : c ∉ l) :
    splitOnChar c l = [l] := by
  induction l with
  | nil => rfl
  | cons a as ih =>
    have ha : ¬ a = c := by
      intro he
      exact h (by rw [← he]; exact List.mem_cons_self a as)
    have has : c ∉ as := fun hm => h (List.mem_cons_of_mem a hm)
    simp only [splitOnChar, if_neg ha, ih has]

theorem not_mem_of_mem_splitOnChar (c : Char) (l m : List Char)
    (hm : m ∈ splitOnChar c l) : c ∉ m := by
  induction l generalizing m with
  | nil =>
    simp only [splitOnChar, List.mem_singleton] at hm
    subst hm
    simp
  | cons a as ih =>
    simp only [splitOnChar] at hm
    by_cases h : a = c
    · rw [if_pos h] at hm
      rcases List.mem_cons.mp hm with h1 | h1
      · subst h1; simp
      · exact ih m h1
    · rw [if_neg h] at hm
      cases hs : splitOnChar c as with
      | nil => exact absurd hs (splitOnChar_ne_nil c as)
      | cons y ys =>
        rw [hs] at hm
        rcases List.mem_cons.mp hm with h1 | h1
        · subst h1
          intro hc
          rcases List.mem_cons.mp hc with h2 | h2
          · exact h h2.symm
          · exact ih y (by rw [hs]; exact List.mem_cons_self y ys) h2
        · exact ih m (by rw [hs]; exact List.mem_cons_of_mem y h1)

theorem exists_append_dropWhile (p : Char → Bool) (l : List Char) :
    ∃ a, l = a ++ l.dropWhile p := by
  induction l with
  | nil => exact ⟨[], rfl⟩
  | cons x xs ih =>
    by_cases h : p x
    · rcases ih with ⟨a, ha⟩
      refine ⟨x :: a, ?_⟩
      rw [List.dropWhile_cons, if_pos h, List.cons_append, ← ha]
    · exact ⟨[], by rw [List.dropWhile_cons, if_neg h]; rfl⟩

theorem dropWhile_head_not (p : Char → Bool) (l : List Char) :
    l.dropWhile p = [] ∨ ∃ c t, l.dropWhile p = c :: t ∧ p c = false := by
  induction l with
  | nil => exact Or.inl rfl
  | cons x xs ih =>
    by_cases h : p x
    · simpa [List.dropWhile_cons, h] using ih
    · exact Or.inr ⟨x, xs, by rw [List.dropWhile_cons, if_neg h],
        Bool.eq_false_iff.mpr h⟩

theorem dropWhile_dropWhile (p : Char → Bool) (l : List Char) :
    (l.dropWhile p).dropWhile p = l.dropWhile p := by
  rcases dropWhile_head_not p l with h | ⟨c, t, h, hc⟩
  · rw [h]; rfl
  · rw [h, List.dropWhile_cons]
    simp [hc]

theorem mem_of_mem_pyStrip {x : Char} {s : List Char} (h : x ∈ pyStrip s) : x ∈ s := by
  unfold pyStrip at h
  rw [List.mem_reverse] at h
  rcases exists_append_dropWhile isPySpace (s.dropWhile isPySpace).reverse with ⟨a, ha⟩
  have h2 : x ∈ (s.dropWhile isPySpace).reverse := by
    rw [ha]; exact List.mem_append_right a h
  rw [List.mem_reverse] at h2
  rcases exists_append_dropWhile isPySpace s with ⟨b, hb⟩
  rw [hb]
  exact List.mem_append_right b h2

theorem pyStrip_idem (s : List Char) : pyStrip (pyStrip s) = pyStrip s := by
  unfold pyStrip
  have hy : ((((s.dropWhile isPySpace).reverse.dropWhile isPySpace).reverse).dropWhile isPySpace)
      = ((s.dropWhile isPySpace).reverse.dropWhile isPySpace).reverse := by
    rcases dropWhile_head_not isPySpace s with h | ⟨c, t, h, hc⟩
    · rw [h]; rfl
    · cases hw : ((s.dropWhile isPySpace).reverse.dropWhile isPySpace).reverse with
      | nil => rfl
      | cons d y' =>
        rcases exists_append_dropWhile isPySpace (s.dropWhile isPySpace).reverse with ⟨a, ha⟩
        have hu : s.dropWhile isPySpace =
            ((s.dropWhile isPySpace).reverse.dropWhile isPySpace).reverse ++ a.reverse := by
          have := congrArg List.reverse ha
          rw [List.reverse_reverse, List.reverse_append] at this
          exact this
        rw [hw, h] at hu
        have hdc : d = c := by
          rw [List.cons_append] at hu
          exact (List.cons.injEq _ _ _ _ ▸ hu).1.symm
        rw [List.dropWhile_cons, hdc]
        simp [hc]
  rw [hy, List.reverse_reverse, dropWhile_dropWhile]

theorem mem_of_mem_splitOnChar (c : Char) (l : List Char) :
    ∀ m, m ∈ splitOnChar c l → ∀ x ∈ m, x ∈ l := by
  induction l with
  | nil =>
    intro m hm x hx
    simp only [splitOnChar, List.mem_singleton] at hm
    subst hm
    exact absurd hx (List.not_mem_nil x)
  | cons a as ih =>
    intro m hm x hx
    simp only [splitOnChar] at hm
    by_cases h : a = c
    · rw [if_pos h] at hm
      rcases List.mem_cons.mp hm with h1 | h1
      · subst h1
        exact absurd hx (List.not_mem_nil x)
      · exact List.mem_cons_of_mem a (ih m h1 x hx)
    · rw [if_neg h] at hm
      cases hs : splitOnChar c as with
      | nil => exact absurd hs (splitOnChar_ne_nil c as)
      | cons y ys =>
        rw [hs] at hm
        rcases List.mem_cons.mp hm with h1 | h1
        · subst h1
          rcases List.mem_cons.mp hx with h2 | h2
          · rw [h2]
            exact List.mem_cons_self a as
          · exact List.mem_cons_of_mem a
              (ih y (by rw [hs]; exact List.mem_cons_self y ys) x h2)
        · exact List.mem_cons_of_mem a
            (ih m (by rw [hs]; exact List.mem_cons_of_mem y h1) x hx)

theorem cr_not_mem_newlineTranslate (l : List Char) : '\r' ∉ newlineTranslate l := by
  induction l using newlineTranslate.induct with
  | case1 => simp [newlineTranslate]
  | case2 rest ih =>
    rw [show newlineTranslate ('\r' :: '\n' :: rest) = '\n' :: newlineTranslate rest from rfl]
    simp only [List.mem_cons]
    rintro (h2 | h2)
    · exact absurd h2 (by decide)
    · exact ih h2
  | case3 rest h ih =>
    have he : newlineTranslate ('\r' :: rest) = '\n' :: newlineTranslate rest := by
      simp [newlineTranslate, h]
    rw [he]
    simp only [List.mem_cons]
    rintro (h2 | h2)
    · exact absurd h2 (by decide)
    · exact ih h2
  | case4 c rest h1 h2 ih =>
    have he : newlineTranslate (c :: rest) = c :: newlineTranslate rest := by
      simp [newlineTranslate, h1, h2]
    rw [he]
    simp only [List.mem_cons]
    rintro (h3 | h3)
    · exact h2 h3.symm
    · exact ih h3

theorem newlineTranslate_eq_self (l : List Char) (h : '\r' ∉ l) :
    newlineTranslate l = l := by
  induction l with
  | nil => rfl
  | cons c cs ih =>
    have hc : ¬ c = '\r' := by
      intro he
      exact h (by rw [he]; exact List.mem_cons_self '\r' cs)
    have he : newlineTranslate (c :: cs) = c :: newlineTranslate cs := by
      simp [newlineTranslate, hc]
    rw [he, ih (fun hm => h (List.mem_cons_of_mem c hm))]

theorem translate_append_newline_aux :
    ∀ (n : Nat) (a b : List Char), a.length ≤ n →
      ∃ w, newlineTranslate (a ++ '\n' :: b) = w ++ '\n' :: newlineTranslate b := by
  intro n
  induction n with
  | zero =>
    intro a b ha
    rw [List.length_eq_zero.mp (Nat.le_zero.mp ha)]
    exact ⟨[], rfl⟩
  | succ m ih =>
    intro a b ha
    cases a with
    | nil => exact ⟨[], rfl⟩
    | cons c a' =>
      by_cases hc : c = '\r'
      · subst hc
        cases a' with
        | nil => exact ⟨[], rfl⟩
        | cons d a'' =>
          by_cases hd : d = '\n'
          · subst hd
            have hlen : a''.length ≤ m := by
              simp only [List.length_cons] at ha
              omega
            rcases ih a'' b hlen with ⟨w, hw⟩
            refine ⟨'\n' :: w, ?_⟩
            rw [show ('\r' :: '\n' :: a'') ++ '\n' :: b =
              '\r' :: '\n' :: (a'' ++ '\n' :: b) from rfl]
            rw [show newlineTranslate ('\r' :: '\n' :: (a'' ++ '\n' :: b)) =
              '\n' :: newlineTranslate (a'' ++ '\n' :: b) from rfl, hw]
            rfl
          · have hlen : (d :: a'').length ≤ m := by
              simp only [List.length_cons] at ha ⊢
              omega
            rcases ih (d :: a'') b hlen with ⟨w, hw⟩
            refine ⟨'\n' :: w, ?_⟩
            have he : newlineTranslate ('\r' :: (d :: a'' ++ '\n' :: b)) =
                '\n' :: newlineTranslate (d :: a'' ++ '\n' :: b) := by
              simp [newlineTranslate, hd]
            rw [show ('\r' :: d :: a'') ++ '\n' :: b =
              '\r' :: (d :: a'' ++ '\n' :: b) from rfl, he, hw]
            rfl
      · have hlen : a'.length ≤ m := by
          simp only [List.length_cons] at ha
          omega
        rcases ih a' b hlen with ⟨w, hw⟩
        refine ⟨c :: w, ?_⟩
        have he : newlineTranslate (c :: (a' ++ '\n' :: b)) =
            c :: newlineTranslate (a' ++ '\n' :: b) := by
          simp [newlineTranslate, hc]
        rw [show (c :: a') ++ '\n' :: b = c :: (a' ++ '\n' :: b) from rfl, he, hw]
        rfl

theorem translate_append_newline (a b : List Char) :
    ∃ w, newlineTranslate (a ++ '\n' :: b) = w ++ '\n' :: newlineTranslate b :=
  translate_append_newline_aux a.length a b le_rfl

theorem blacklistFile_shape (adds : List (List Char)) :
    blacklistFile adds = [] ∨ ∃ A, blacklistFile adds = A ++ ['\n'] := by
  induction adds with
  | nil => exact Or.inl rfl
  | cons a rest ih =>
    right
    have hcons : blacklistFile (a :: rest) = (a ++ ['\n']) ++ blacklistFile rest := rfl
    rcases ih with h | ⟨A, hA⟩
    · exact ⟨a, by rw [hcons, h, List.append_nil]⟩
    · exact ⟨a ++ ['\n'] ++ A, by rw [hcons, hA]; simp [List.append_assoc]⟩

/-- C10 counterexample: the empty identifier contains no newline, equals its
own stripped form and does not start with `#`, yet after appending it the
lookup still reports it as not blacklisted (the loader skips blank lines). -/
theorem blacklist_empty_identifier_counterexample :
    pyStrip ([] : List Char) = [] ∧ '\n' ∉ ([] : List Char) ∧
    ([] : List Char).head? ≠ some '#' ∧
    isBlacklisted (addToBlacklist (blacklistFile []) []) [] = false := by decide

/-- The model agrees with the program on an identifier with an interior
carriage return: universal-newline reading splits `"a\rb\n"` into the lines
`"a"` and `"b"`, so `"a\rb"` is never reported blacklisted. -/
example : isBlacklisted (addToBlacklist (blacklistFile []) "a\rb".data) "a\rb".data
    = false := by decide

/-- C10 amended: over every append-built store state, after
`add_to_blacklist s` the lookup `is_blacklisted s` reports true exactly when
`s` is non-empty, contains no newline and no carriage return, equals its own
stripped form and does not start with `#` (a lone `'\r'` also terminates a
line under the reader's universal newlines, so an identifier with an interior
carriage return is split on load and never loaded intact). -/
theorem blacklist_roundtrip (adds : List (List Char)) (s : List Char) :
    isBlacklisted (addToBlacklist (blacklistFile adds) s) s = true ↔
      s ≠ [] ∧ '\n' ∉ s ∧ '\r' ∉ s ∧ pyStrip s = s ∧ s.head? ≠ some '#' := by
  constructor
  · intro h
    have hmem : s ∈ loadBlacklist (addToBlacklist (blacklistFile adds) s) := by
      simpa [isBlacklisted] using h
    rcases List.mem_filter.mp hmem with ⟨hmap, hkept⟩
    rcases List.mem_map.mp hmap with ⟨line, hline, hstrip⟩
    have hne : s ≠ [] := by
      intro he
      rw [he] at hkept
      exact Bool.false_ne_true hkept
    refine ⟨hne, ?_, ?_, ?_, ?_⟩
    · intro hnl
      have hnl' : '\n' ∈ line := mem_of_mem_pyStrip (hstrip ▸ hnl)
      exact not_mem_of_mem_splitOnChar '\n' _ line hline hnl'
    · intro hcr
      have hcr' : '\r' ∈ line := mem_of_mem_pyStrip (hstrip ▸ hcr)
      have hcr2 : '\r' ∈ newlineTranslate (addToBlacklist (blacklistFile adds) s) :=
        mem_of_mem_splitOnChar '\n' _ line hline '\r' hcr'
      exact cr_not_mem_newlineTranslate _ hcr2
    · rw [← hstrip, pyStrip_idem]
    · cases s with
      | nil => exact absurd rfl hne
      | cons c cs =>
        simp only [lineKept] at hkept
        simp only [List.head?_cons, ne_eq, Option.some.injEq]
        intro he
        rw [he] at hkept
        simp at hkept
  · rintro ⟨hne, hnl, hcr, hstrip, hhash⟩
    have hself : newlineTranslate (s ++ ['\n']) = s ++ ['\n'] := by
      apply newlineTranslate_eq_self
      intro hm
      rcases List.mem_append.mp hm with h1 | h1
      · exact hcr h1
      · exact absurd (List.mem_singleton.mp h1) (by decide)
    have hmem : s ∈ splitOnChar '\n'
        (newlineTranslate (addToBlacklist (blacklistFile adds) s)) := by
      unfold addToBlacklist
      rcases blacklistFile_shape adds with h0 | ⟨A, hA⟩
      · rw [h0, List.nil_append, hself, splitOnChar_append_cons,
          splitOnChar_of_not_mem '\n' s hnl]
        exact List.mem_append_left _ (List.mem_singleton.mpr rfl)
      · rw [hA]
        have hshape : (A ++ ['\n']) ++ s ++ ['\n'] = A ++ '\n' :: (s ++ ['\n']) := by
          simp [List.append_assoc]
        rw [hshape]
        rcases translate_append_newline A (s ++ ['\n']) with ⟨w, hw⟩
        rw [hw, hself, splitOnChar_append_cons]
        apply List.mem_append_right
        rw [splitOnChar_append_cons, splitOnChar_of_not_mem '\n' s hnl]
        exact List.mem_append_left _ (List.mem_singleton.mpr rfl)
    have hk : lineKept s = true := by
      cases s with
      | nil => exact absurd rfl hne
      | cons c cs =>
        simp only [lineKept, bne_iff_ne, ne_eq]
        intro he
        rw [he] at hhash
        simp at hhash
    have hload : s ∈ loadBlacklist (addToBlacklist (blacklistFile adds) s) := by
      apply List.mem_filter.mpr
      exact ⟨List.mem_map.mpr ⟨s, hmem, hstrip⟩, hk⟩
    simpa [isBlacklisted] using hload

/-! ## Archive validation (`archive_handler.validate_archive`)

An archive is modelled by its filename and, for the path where the entry
listing succeeds, the listed entries: each entry is its in-archive path and
its declared (not decompressed) size, as `zipfile` reports `file_size`.  The
listing-failure path (the `except` arm) is outside the claims, which
condition on a successful listing. -/

def ARCHIVE_EXTENSIONS : List (List Char) := [".zip".data, ".7z".data]

def MAX_EXTRACTED_SIZE : Nat := 500 * 1024 * 1024

def DANGEROUS_EXTENSIONS : List (List Char) :=
  [ ".exe".data, ".bat".data, ".cmd".data, ".com".data, ".msi".data, ".scr".data,
    ".pif".data,
    ".app".data, ".dmg".data, ".pkg".data,
    ".sh".data, ".bin".data, ".run".data,
    ".js".data, ".vbs".data, ".vbe".data, ".jse".data, ".ws".data, ".wsf".data,
    ".wsc".data, ".wsh".data,
    ".ps1".data, ".psm1".data, ".psd1".data,
    ".py".data, ".pyw".data, ".pyc".data, ".pyo".data,
    ".rb".data, ".pl".data, ".php".data,
    ".docm".data, ".xlsm".data, ".pptm".data, ".dotm".data, ".xltm".data,
    ".potm".data,
    ".jar".data, ".class".data,
    ".dll".data, ".sys".data, ".drv".data,
    ".lnk".data, ".url".data,
    ".reg".data,
    ".hta".data, ".html".data, ".htm".data,
    ".svg".data ]

structure ArchiveEntry where
  path : List Char
  declaredSize : Nat
deriving Repr, DecidableEq

/-- An entry path naming a directory, as the source tests it. -/
def isDirEntry (p : List Char) : Bool := p.getLast? = some '/'

def lowerSuffix (p : List Char) : List Char := (pathSuffix p).map Char.toLower

/-- `validate_archive` on the successful-listing path.  The declared-size sum
is checked only for `.zip` archives, exactly as in the source.  The rejection
messages' constant prefixes stand for the interpolated Python strings. -/
def validateArchive (archiveName : List Char) (entries : List ArchiveEntry) :
    Bool × String :=
  let ext := lowerSuffix archiveName
  if ext ∉ ARCHIVE_EXTENSIONS then (false, "不支持的压缩包格式")
  else if 10000 < entries.length then (false, "压缩包文件数量过多（超过10000个）")
  else
    let dangerousFiles := entries.filterMap (fun e =>
      if isDirEntry e.path then none
      else if lowerSuffix e.path ∈ DANGEROUS_EXTENSIONS then some (pathName e.path)
      else none)
    if dangerousFiles ≠ [] then (false, "压缩包包含可能有危险的文件类型")
    else if ext = ".zip".data ∧
        MAX_EXTRACTED_SIZE < (entries.map (·.declaredSize)).sum then
      (false, "解压后大小超过限制")
    else (true, "")

/-- C5: whenever any listed non-directory entry has a lower-cased extension
in the dangerous-extension denylist, `validate_archive` rejects the archive,
regardless of the other entries. -/
theorem validateArchive_rejects_dangerous (archiveName : List Char)
    (entries : List ArchiveEntry) (e : ArchiveEntry)
    (he : e ∈ entries) (hnd : isDirEntry e.path = false)
    (hdang : lowerSuffix e.path ∈ DANGEROUS_EXTENSIONS) :
    (validateArchive archiveName entries).1 = false := by
  unfold validateArchive
  by_cases hext : lowerSuffix archiveName ∉ ARCHIVE_EXTENSIONS
  · simp [hext]
  · rw [if_neg (by simpa using hext)]
    by_cases hcount : 10000 < entries.length
    · simp [hcount]
    · rw [if_neg hcount]
      have hne : entries.filterMap (fun e =>
          if isDirEntry e.path then none
          else if lowerSuffix e.path ∈ DANGEROUS_EXTENSIONS then some (pathName e.path)
          else none) ≠ [] := by
        intro hnil
        have : pathName e.path ∈ entries.filterMap (fun e =>
            if isDirEntry e.path then none
            else if lowerSuffix e.path ∈ DANGEROUS_EXTENSIONS then some (pathName e.path)
            else none) := by
          apply List.mem_filterMap.mpr
          exact ⟨e, he, by rw [hnd]; simp [hdang]⟩
        rw [hnil] at this
        exact List.not_mem_nil _ this
      rw [if_pos hne]

theorem validateArchive_rejects_dangerous_witness :
    (validateArchive "photos.zip".data
      [⟨"payload.exe".data, 10⟩, ⟨"a.jpg".data, 5⟩, ⟨"b.jpg".data, 5⟩]).1 = false :=
  validateArchive_rejects_dangerous "photos.zip".data
    [⟨"payload.exe".data, 10⟩, ⟨"a.jpg".data, 5⟩, ⟨"b.jpg".data, 5⟩]
    ⟨"payload.exe".data, 10⟩ (by decide) (by decide) (by decide)

/-- C6 counterexample: a `.7z` archive whose declared sizes sum to 600MB —
over the 500MB cap — passes `validate_archive`, because the size check is
performed only inside the `.zip` branch. -/
theorem validateArchive_7z_size_counterexample :
    MAX_EXTRACTED_SIZE < 600 * 1024 * 1024 ∧
    validateArchive "big.7z".data [⟨"a.jpg".data, 600 * 1024 * 1024⟩] = (true, "") := by
  constructor
  · decide
  · rfl

/-- C6 amended: the declared-size cap is enforced for `.zip` archives — any
zip whose declared entry sizes sum over 500MB is rejected — while `.7z`
archives are not size-checked. -/
theorem validateArchive_zip_size_cap (archiveName : List Char)
    (entries : List ArchiveEntry)
    (hzip : lowerSuffix archiveName = ".zip".data)
    (hbig : MAX_EXTRACTED_SIZE < (entries.map (·.declaredSize)).sum) :
    (validateArchive archiveName entries).1 = false := by
  unfold validateArchive
  rw [if_neg (by simp [hzip, ARCHIVE_EXTENSIONS])]
  by_cases hcount : 10000 < entries.length
  · simp [hcount]
  · rw [if_neg hcount]
    by_cases hdang : entries.filterMap (fun e =>
        if isDirEntry e.path then none
        else if lowerSuffix e.path ∈ DANGEROUS_EXTENSIONS then some (pathName e.path)
        else none) ≠ []
    · rw [if_pos hdang]
    · rw [if_neg hdang, if_pos ⟨hzip, hbig⟩]

theorem validateArchive_zip_size_cap_witness :
    (validateArchive "big.zip".data [⟨"a.jpg".data, 600 * 1024 * 1024⟩]).1 = false :=
  validateArchive_zip_size_cap "big.zip".data [⟨"a.jpg".data, 600 * 1024 * 1024⟩]
    (by decide) (by decide)

/-! ## Preview selection (`archive_handler.smart_select_preview_images`)

`re.findall(r'(\d+)')` on the filename stem: the first match is the first
maximal ASCII digit run; `int` of it never fails.  Python's `list.sort` and
`sorted` are stable; a stable sort under a total preorder is unique, so the
stable insertion sort below models them. -/

def firstDigitRun (l : List Char) : Option Nat :=
  let rest := l.dropWhile (fun c => !c.isDigit)
  if rest.isEmpty then none
  else some ((rest.takeWhile Char.isDigit).foldl (fun a c => a * 10 + (c.toNat - 48)) 0)

/-- Python string `≤`: lexicographic by code point. -/
def lexLe : List Char → List Char → Bool
  | [], _ => true
  | _ :: _, [] => false
  | a :: as, b :: bs => if a = b then lexLe as bs else decide (a < b)

def strLe (s t : String) : Bool := lexLe s.data t.data

def insertLe {α : Type} (le : α → α → Bool) (x : α) : List α → List α
  | [] => [x]
  | y :: ys => if le x y then x :: y :: ys else y :: insertLe le x ys

/-- Stable insertion sort: an element is placed before the first already
placed element it compares `le` to, so original order is kept among ties. -/
def sortLe {α : Type} (le : α → α → Bool) : List α → List α
  | [] => []
  | x :: xs => insertLe le x (sortLe le xs)

def smartSelectPreviewImages (imageList : List String) (count : Nat) : List String :=
  if imageList.isEmpty then []
  else if imageList.length ≤ count then imageList
  else
    let numbered := imageList.filterMap (fun img =>
      (firstDigitRun (pathStem img.data)).map (fun n => (n, img)))
    if numbered.isEmpty then (sortLe strLe imageList).take count
    else ((sortLe (fun p q : Nat × String => decide (p.1 ≤ q.1)) numbered).map Prod.snd).take count

/-- The numeric key the spec sorts by: the integer value of the first digit
run in the filename stem (only evaluated on filenames that have one). -/
def refKey (img : String) : Nat := (firstDigitRun (pathStem img.data)).getD 0

/-- Reference definition of the preview-selection heuristic, written from the
spec's words (C2): all when few enough; otherwise the digit-bearing subset
sorted ascending by first digit run, truncated; otherwise the lexicographic
sort, truncated. -/
def selectPreviewsRef (images : List String) (n : Nat) : List String :=
  if images.length ≤ n then images
  else
    let withDigits := images.filter (fun img => (firstDigitRun (pathStem img.data)).isSome)
    if withDigits.isEmpty then (sortLe strLe images).take n
    else (sortLe (fun a b => decide (refKey a ≤ refKey b)) withDigits).take n

theorem numbered_eq_map_filter (images : List String) :
    images.filterMap (fun img =>
        (firstDigitRun (pathStem img.data)).map (fun n => (n, img))) =
      (images.filter (fun img => (firstDigitRun (pathStem img.data)).isSome)).map
        (fun img => (refKey img, img)) := by
  induction images with
  | nil => rfl
  | cons x xs ih =>
    cases hx : firstDigitRun (pathStem x.data) with
    | none => simp [List.filterMap_cons, List.filter_cons, hx, ih]
    | some k => simp [List.filterMap_cons, List.filter_cons, hx, ih, refKey]

theorem insertLe_map {α β : Type} (f : α → β) (le : α → α → Bool)
    (le' : β → β → Bool) (h : ∀ a b, le' (f a) (f b) = le a b) (x : α)
    (l : List α) : insertLe le' (f x) (l.map f) = (insertLe le x l).map f := by
  induction l with
  | nil => rfl
  | cons y ys ih =>
    simp only [List.map_cons, insertLe, h]
    by_cases hxy : le x y
    · simp [hxy]
    · simp [hxy, ih]

theorem sortLe_map {α β : Type} (f : α → β) (le : α → α → Bool)
    (le' : β → β → Bool) (h : ∀ a b, le' (f a) (f b) = le a b) (l : List α) :
    sortLe le' (l.map f) = (sortLe le l).map f := by
  induction l with
  | nil => rfl
  | cons x xs ih =>
    simp only [List.map_cons, sortLe, ih]
    exact insertLe_map f le le' h x (sortLe le xs)

/-- C2: `smart_select_preview_images` coincides with the spec's reference
heuristic on every input, and reproduces the two worked examples. -/
theorem smartSelectPreviewImages_spec :
    (∀ images n, smartSelectPreviewImages images n = selectPreviewsRef images n) ∧
    smartSelectPreviewImages ["b2.jpg", "a1.jpg", "c10.jpg"] 2 = ["a1.jpg", "b2.jpg"] ∧
    smartSelectPreviewImages ["zeta.jpg", "alpha.jpg"] 1 = ["alpha.jpg"] := by
  refine ⟨?_, by decide, by decide⟩
  intro images n
  unfold smartSelectPreviewImages selectPreviewsRef
  by_cases hemp : images.isEmpty
  · rw [if_pos hemp]
    have he : images = [] := List.isEmpty_iff.mp hemp
    subst he
    simp
  · rw [if_neg hemp]
    by_cases hlen : images.length ≤ n
    · simp [hlen]
    · rw [if_neg hlen, if_neg hlen, numbered_eq_map_filter]
      by_cases hwd : (images.filter
          (fun img => (firstDigitRun (pathStem img.data)).isSome)).isEmpty
      · have he : images.filter
            (fun img => (firstDigitRun (pathStem img.data)).isSome) = [] :=
          List.isEmpty_iff.mp hwd
        rw [he]
        simp
      · have he : ¬ ((images.filter
            (fun img => (firstDigitRun (pathStem img.data)).isSome)).map
              (fun img => (refKey img, img))).isEmpty = true := by
          intro hc
          apply hwd
          rw [List.isEmpty_iff] at hc ⊢
          exact List.map_eq_nil_iff.mp hc
        rw [if_neg he, if_neg hwd,
          sortLe_map (fun img => (refKey img, img))
            (fun a b => decide (refKey a ≤ refKey b))
            (fun p q : Nat × String => decide (p.1 ≤ q.1)) (fun a b => rfl),
          List.map_map]
        have hid : (Prod.snd ∘ fun img => (refKey img, img)) = id := rfl
        rw [hid, List.map_id]

/-! ## Moderation repository (`db/repositories/checkin.py`, `api/admin.py`)

The `check_ins` table is a list of rows; only the columns the moderation
claims touch are modelled (the default listing arguments disable every other
filter, and the subquery's `display_number` does not affect membership).
`approved` is the INTEGER column (0 = pending, 1 = approved).

`get_list` with default arguments filters `approved = 1`, orders by `id`
DESC and paginates with `LIMIT 20 OFFSET (page-1)*20`; `get_pending_list`
filters `approved = 0` and orders by `created_at` DESC.  `approve` is an
UPDATE by id stamping the review time, `reject` a DELETE by id; the admin
ban endpoint appends the submitter IP to the blacklist file and then deletes
the record via `reject`, while the repository-level `ban` merely sets
`approved = 0`. -/

structure CheckInRow where
  id : Nat
  createdAt : Int
  approved : Nat
  reviewedAt : Option Int
deriving Repr, DecidableEq

def publicListingPage (db : List CheckInRow) (page limit : Nat) : List CheckInRow :=
  let rows := db.filter (fun r => r.approved = 1)
  let sorted := sortLe (fun a b : CheckInRow => decide (b.id ≤ a.id)) rows
  (sorted.drop ((page - 1) * limit)).take limit

def pendingListingPage (db : List CheckInRow) (page limit : Nat) : List CheckInRow :=
  let rows := db.filter (fun r => r.approved = 0)
  let sorted := sortLe (fun a b : CheckInRow => decide (b.createdAt ≤ a.createdAt)) rows
  (sorted.drop ((page - 1) * limit)).take limit

/-- `approve`: `UPDATE check_ins SET approved = 1, reviewed_at = ? WHERE id = ?`;
the Bool is `rowcount > 0`. -/
def approve (reviewedAt : Int) (cid : Nat) (db : List CheckInRow) :
    Bool × List CheckInRow :=
  (db.any (fun r => r.id == cid),
   db.map (fun r =>
     if r.id = cid then { r with approved := 1, reviewedAt := some reviewedAt } else r))

/-- `reject`: `DELETE FROM check_ins WHERE id = ?`. -/
def reject (cid : Nat) (db : List CheckInRow) : Bool × List CheckInRow :=
  (db.any (fun r => r.id == cid), db.filter (fun r => ¬ r.id = cid))

/-- Repository-level `ban`: `UPDATE check_ins SET approved = 0 WHERE id = ?`. -/
def banRepo (cid : Nat) (db : List CheckInRow) : Bool × List CheckInRow :=
  (db.any (fun r => r.id == cid),
   db.map (fun r => if r.id = cid then { r with approved := 0 } else r))

inductive ModOp where
  | approveOp (reviewedAt : Int) (cid : Nat)
  | rejectOp (cid : Nat)
  | banRepoOp (cid : Nat)
  | banAdminOp (cid : Nat)

/-- Table effect of one moderation operation; the admin ban endpoint deletes
the record (its blacklist append touches the blocklist file, not this
table). -/
def applyModOp (db : List CheckInRow) : ModOp → List CheckInRow
  | .approveOp t cid => (approve t cid db).2
  | .rejectOp cid => (reject cid db).2
  | .banRepoOp cid => (banRepo cid db).2
  | .banAdminOp cid => (reject cid db).2

def applyModOps (db : List CheckInRow) : List ModOp → List CheckInRow
  | [] => db
  | op :: ops => applyModOps (applyModOp db op) ops

theorem mem_insertLe {α : Type} (le : α → α → Bool) (y x : α) (l : List α) :
    x ∈ insertLe le y l ↔ x = y ∨ x ∈ l := by
  induction l with
  | nil => simp [insertLe]
  | cons z zs ih =>
    simp only [insertLe]
    by_cases h : le y z
    · simp [h]
    · rw [if_neg h]
      simp only [List.mem_cons, ih]
      tauto

theorem mem_sortLe {α : Type} (le : α → α → Bool) (x : α) (l : List α) :
    x ∈ sortLe le l ↔ x ∈ l := by
  induction l with
  | nil => simp [sortLe]
  | cons z zs ih =>
    simp only [sortLe, mem_insertLe, ih, List.mem_cons]

theorem exists_block_take_drop {α : Type} {x : α} {lim : Nat} (hlim : 0 < lim) :
    ∀ (n : Nat) (l : List α), l.length ≤ n → x ∈ l →
      ∃ k : Nat, x ∈ (l.drop (k * lim)).take lim := by
  intro n
  induction n with
  | zero =>
    intro l hn hx
    rw [List.length_eq_zero.mp (Nat.le_zero.mp hn)] at hx
    exact absurd hx (List.not_mem_nil x)
  | succ m ih =>
    intro l hn hx
    have hsplit : x ∈ l.take lim ++ l.drop lim := by
      rw [List.take_append_drop]
      exact hx
    rcases List.mem_append.mp hsplit with h | h
    · exact ⟨0, by simpa using h⟩
    · have hlen : (l.drop lim).length ≤ m := by
        rw [List.length_drop]
        omega
      rcases ih (l.drop lim) hlen h with ⟨k, hk⟩
      refine ⟨k + 1, ?_⟩
      rw [List.drop_drop] at hk
      rw [show (k + 1) * lim = lim + k * lim by ring]
      exact hk

theorem exists_page_mem {α : Type} {x : α} {lim : Nat} (hlim : 0 < lim)
    (l : List α) (hx : x ∈ l) :
    ∃ page : Nat, x ∈ (l.drop ((page - 1) * lim)).take lim := by
  rcases exists_block_take_drop hlim l.length l le_rfl hx with ⟨k, hk⟩
  exact ⟨k + 1, by simpa using hk⟩

/-- C3: a pending row is on no page of the default public listing and on some
page of the pending listing; `approve` succeeds on it, stamps the review
time, and afterwards the row is on some page of the default public listing
and rows with its id are on no page of the pending listing. -/
theorem checkin_pending_approval_lifecycle (db : List CheckInRow)
    (r : CheckInRow) (t : Int) (hmem : r ∈ db) (hpend : r.approved = 0) :
    (∀ page, r ∉ publicListingPage db page 20) ∧
    (∃ page, r ∈ pendingListingPage db page 20) ∧
    (approve t r.id db).1 = true ∧
    (∃ page, { r with approved := 1, reviewedAt := some t } ∈
        publicListingPage (approve t r.id db).2 page 20) ∧
    (∀ page r', r' ∈ pendingListingPage (approve t r.id db).2 page 20 →
        r'.id ≠ r.id) := by
  refine ⟨?_, ?_, ?_, ?_, ?_⟩
  · intro page h
    have h1 := List.mem_of_mem_drop (List.mem_of_mem_take h)
    have h2 := (mem_sortLe _ r _).mp h1
    have h3 := (List.mem_filter.mp h2).2
    rw [hpend] at h3
    simp at h3
  · apply exists_page_mem (by norm_num)
    apply (mem_sortLe _ r _).mpr
    exact List.mem_filter.mpr ⟨hmem, by simp [hpend]⟩
  · exact List.any_eq_true.mpr ⟨r, hmem, by simp⟩
  · apply exists_page_mem (by norm_num)
    apply (mem_sortLe _ _ _).mpr
    apply List.mem_filter.mpr
    constructor
    · apply List.mem_map.mpr
      exact ⟨r, hmem, by rw [if_pos rfl]⟩
    · simp
  · intro page r' h
    have h1 := List.mem_of_mem_drop (List.mem_of_mem_take h)
    have h2 := (mem_sortLe _ r' _).mp h1
    rcases List.mem_filter.mp h2 with ⟨h3, h4⟩
    rcases List.mem_map.mp h3 with ⟨x, hxdb, hxr⟩
    by_cases hid : x.id = r.id
    · rw [if_pos hid] at hxr
      rw [← hxr] at h4
      simp at h4
    · rw [if_neg hid] at hxr
      rw [← hxr]
      exact hid

theorem checkin_pending_approval_lifecycle_witness :
    (approve 5 (⟨1, 0, 0, none⟩ : CheckInRow).id [⟨1, 0, 0, none⟩]).1 = true :=
  (checkin_pending_approval_lifecycle [⟨1, 0, 0, none⟩] ⟨1, 0, 0, none⟩ 5
    (by decide) (by decide)).2.2.1

/-- C4 counterexample: the repository-level `ban` sets `approved = 0`
(pending), so a subsequent `approve` on the same id returns the banned
submission to the approved state, and it reappears on page 1 of the default
public listing — banning is not terminal on this path. -/
theorem ban_terminal_counterexample :
    (approve 7 1 (banRepo 1 [⟨1, 0, 1, none⟩]).2).2 = [⟨1, 0, 1, some 7⟩] ∧
    (⟨1, 0, 1, some 7⟩ : CheckInRow) ∈
      publicListingPage (approve 7 1 (banRepo 1 [⟨1, 0, 1, none⟩]).2).2 1 20 := by
  decide

theorem applyModOp_keeps_noId (db : List CheckInRow) (op : ModOp) (bid : Nat)
    (h : ∀ r ∈ db, r.id ≠ bid) : ∀ r ∈ applyModOp db op, r.id ≠ bid := by
  cases op with
  | approveOp t cid =>
    intro r hr
    rcases List.mem_map.mp hr with ⟨x, hx, hxr⟩
    have hid : r.id = x.id := by
      rw [← hxr]
      by_cases hc : x.id = cid
      · rw [if_pos hc]
      · rw [if_neg hc]
    rw [hid]
    exact h x hx
  | rejectOp cid =>
    intro r hr
    exact h r (List.mem_of_mem_filter hr)
  | banRepoOp cid =>
    intro r hr
    rcases List.mem_map.mp hr with ⟨x, hx, hxr⟩
    have hid : r.id = x.id := by
      rw [← hxr]
      by_cases hc : x.id = cid
      · rw [if_pos hc]
      · rw [if_neg hc]
    rw [hid]
    exact h x hx
  | banAdminOp cid =>
    intro r hr
    exact h r (List.mem_of_mem_filter hr)

theorem applyModOps_keeps_noId (ops : List ModOp) :
    ∀ (db : List CheckInRow) (bid : Nat), (∀ r ∈ db, r.id ≠ bid) →
      ∀ r ∈ applyModOps db ops, r.id ≠ bid := by
  induction ops with
  | nil => intro db bid h; exact h
  | cons op rest ih =>
    intro db bid h
    exact ih (applyModOp db op) bid (applyModOp_keeps_noId db op bid h)

/-- C4 amended: banning through the admin endpoint deletes the record, and
that is terminal — after it, no sequence of moderation operations (approve,
reject, repository ban, admin ban) ever yields a row with the banned id, in
the table or on any page of the default public listing.  (The repository
`ban` alone is not terminal: see the counterexample.) -/
theorem banAdmin_delete_terminal (db : List CheckInRow) (bid : Nat)
    (ops : List ModOp) :
    (∀ r ∈ applyModOps (applyModOp db (.banAdminOp bid)) ops, r.id ≠ bid) ∧
    (∀ page r', r' ∈ publicListingPage
        (applyModOps (applyModOp db (.banAdminOp bid)) ops) page 20 →
        r'.id ≠ bid) := by
  have hbase : ∀ r ∈ applyModOp db (.banAdminOp bid), r.id ≠ bid := by
    intro r hr
    have := (List.mem_filter.mp hr).2
    simpa using this
  have hall := applyModOps_keeps_noId ops (applyModOp db (.banAdminOp bid)) bid hbase
  refine ⟨hall, ?_⟩
  intro page r' h
  have h1 := List.mem_of_mem_drop (List.mem_of_mem_take h)
  have h2 := (mem_sortLe _ r' _).mp h1
  exact hall r' (List.mem_of_mem_filter h2)

end Lianlol
